import Mathlib

/-!
Verification of the blockstats-explorer core against its specification.

The Rust sources are shallowly embedded: bytes are `Nat` (values < 256 where it
matters, XOR is total on `Nat` anyway), 32-byte block hashes are `Nat` with `0`
standing for the all-zero hash, file streams are `List Nat` with an explicit
position, the `HashMap<BlockHash, _>` working map of the chain graph resolver is
a function `Nat → Option BlockEntry`, and Rust's unbounded `loop` constructs are
given explicit fuel (`none` = the loop did not finish within the fuel).
`f64` distribution values are idealised as `ℚ`.
-/

namespace Blockstats

/-! Container codec (src/bin/block_parser.rs) -/

/-- Embedding of `BlockFileReader::deobfuscate_data`: XOR every byte with
`xor_key[(offset + i) % 8]`, where `offset` is the absolute stream offset of the
first byte.  The recursion carries the absolute position of the current byte. -/
def deobfuscate_data (key : List Nat) : List Nat → Nat → List Nat
  | [], _ => []
  | b :: rest, pos => (b ^^^ key.getD (pos % 8) 0) :: deobfuscate_data key rest (pos + 1)

/-- Reading `len` bytes from absolute position `pos` of a byte stream;
`none` models `read_exact` failing with `UnexpectedEof`. -/
def streamRead (stream : List Nat) (pos len : Nat) : Option (List Nat) :=
  if pos + len ≤ stream.length then some ((stream.drop pos).take len) else none

/-- The mainnet magic constant `F9 BE B4 D9` as raw bytes. -/
def magicBytes : List Nat := [0xf9, 0xbe, 0xb4, 0xd9]

/-- Little-endian u32 from 4 bytes, as in `u32::from_le_bytes`. -/
def leU32 (bytes : List Nat) : Nat :=
  bytes.getD 0 0 + bytes.getD 1 0 * 256 + bytes.getD 2 0 * 65536 +
    bytes.getD 3 0 * 16777216

/-- Result of `read_next_header`: `eof` is Rust's `Ok(None)`, `err` is `Err(..)`,
`ok hdr offset size` is `Ok(Some((header, offset, size)))` with the header kept
as its 80 deobfuscated bytes. -/
inductive HeaderResult where
  | eof : HeaderResult
  | err (msg : String) : HeaderResult
  | ok (header : List Nat) (offset : Nat) (size : Nat) : HeaderResult
deriving DecidableEq

/-- Embedding of `BlockFileReader::read_next_header`: read the 8-byte prefix
(`Ok(None)` on EOF), treat a raw all-zero prefix as end-of-stream before any
deobfuscation, deobfuscate, check the magic, then read and deobfuscate the
80-byte block header. -/
def read_next_header (key : List Nat) (stream : List Nat) (pos : Nat) : HeaderResult :=
  match streamRead stream pos 8 with
  | Option.none => HeaderResult.eof
  | Option.some raw =>
    if raw = List.replicate 8 0 then HeaderResult.eof
    else
      let deob := deobfuscate_data key raw pos
      if deob.take 4 ≠ magicBytes then HeaderResult.err "Invalid magic bytes"
      else
        match streamRead stream (pos + 8) 80 with
        | Option.none => HeaderResult.err "failed to fill whole buffer"
        | Option.some hdrRaw =>
            HeaderResult.ok (deobfuscate_data key hdrRaw (pos + 8)) pos (leU32 (deob.drop 4))

/-! Legacy KV value deobfuscation (src/bin/chain_tip.rs `deobfuscate_value`,
duplicated as `BlockIndexReader::deobfuscate` in src/bin/block_iterator.rs) -/

/-- The general path of `deobfuscate_value`: XOR byte `i` with
`key[i % key.len()]`; `i` here is the absolute index within the value. -/
def xorWithKey (key : List Nat) : List Nat → Nat → List Nat
  | [], _ => []
  | b :: rest, i => (b ^^^ key.getD (i % key.length) 0) :: xorWithKey key rest (i + 1)

/-- Embedding of `deobfuscate_value`: if every key byte is zero the input is
returned unchanged (fast path), otherwise the general XOR path runs. -/
def deobfuscate_value (data key : List Nat) : List Nat :=
  if key.all (fun b => b = 0) then data else xorWithKey key data 0

/-- Modelled from the spec for the refinement comparison: byte-wise XOR of the
input with the key repeated with wraparound, with no fast path. -/
def xorRepeat (data key : List Nat) : List Nat :=
  (List.range data.length).map (fun i => data.getD i 0 ^^^ key.getD (i % key.length) 0)

/-! Chain graph resolver (src/bin/main.rs) -/

/-- Embedding of the `BlockHeight` enum (`NotYetKnown` / `Known` / `Orphaned`). -/
inductive BlockHeight where
  | NotYetKnown : BlockHeight
  | Known (h : Nat) : BlockHeight
  | Orphaned : BlockHeight
deriving DecidableEq

/-- One value of the working map `blocks_by_hash`: the tuple
`(offset, file_path, prev_hash, height, block_size)` with the file path kept as
an opaque numeric identifier. -/
structure BlockEntry where
  offset : Nat
  file : Nat
  prev : Nat
  height : BlockHeight
  size : Nat
deriving DecidableEq

/-- The working map `blocks_by_hash : HashMap<BlockHash, ...>`. -/
def BlocksMap : Type := Nat → Option BlockEntry

/-- Write the height field of the entry stored under `hsh`; a missing key is
left untouched (Rust's `if let Some(entry) = map.get_mut(..)`). -/
def setHeight (m : BlocksMap) (hsh : Nat) (ht : BlockHeight) : BlocksMap :=
  fun x => if x = hsh then (m hsh).map (fun e => { e with height := ht }) else m x

/-- Mark every hash on the walk stack `Orphaned`, as in the two orphan branches
of `get_block_height`. -/
def markOrphaned (m : BlocksMap) (stack : List Nat) : BlocksMap :=
  stack.foldl (fun mm h => setHeight mm h BlockHeight.Orphaned) m

/-- Phase 2 of `get_block_height`: pop the stack from the oldest pushed hash
backwards (`stack.iter().rev()`), assigning strictly increasing `Known` heights
starting one above `base`; returns the updated map and the last height set. -/
def unwindStack (m : BlocksMap) (base : Nat) (stack : List Nat) : BlocksMap × Nat :=
  stack.reverse.foldl (fun p h => (setHeight p.1 h (BlockHeight.Known (p.2 + 1)), p.2 + 1))
    (m, base)

/-- Phase 1 of `get_block_height` (the Rust `loop`): push the current hash,
look it up, and either orphan the whole stack, unwind from a `Known` ancestor,
or follow `prev_hash` backwards.  Structural recursion on fuel; `none` models
the loop not terminating within the fuel. -/
def heightLoop : Nat → BlocksMap → Nat → List Nat → Option (BlocksMap × BlockHeight)
  | 0, _, _, _ => Option.none
  | fuel + 1, m, cur, stack =>
    let stack' := stack ++ [cur]
    match m cur with
    | Option.none => some (markOrphaned m stack', BlockHeight.Orphaned)
    | Option.some e =>
      match e.height with
      | BlockHeight.Known b =>
          let r := unwindStack m b stack
          some (r.1, BlockHeight.Known r.2)
      | BlockHeight.Orphaned => some (markOrphaned m stack', BlockHeight.Orphaned)
      | BlockHeight.NotYetKnown => heightLoop fuel m e.prev stack'

/-- Embedding of `get_block_height`: short-circuit if the start hash is already
resolved, otherwise run the two-phase stack walk. -/
def get_block_height (fuel : Nat) (start : Nat) (m : BlocksMap) :
    Option (BlocksMap × BlockHeight) :=
  match m start with
  | Option.some e =>
    match e.height with
    | BlockHeight.NotYetKnown => heightLoop fuel m start []
    | _ => some (m, e.height)
  | Option.none => heightLoop fuel m start []

/-- The resolution pass of `build_index`: call `get_block_height` on every
discovered hash in the given order, threading the mutated map. -/
def resolveAll (fuel : Nat) : List Nat → BlocksMap → Option BlocksMap
  | [], m => some m
  | h :: t, m =>
    match get_block_height fuel h m with
    | Option.none => Option.none
    | Option.some (m', _) => resolveAll fuel t m'

/-- The working map produced by the header scan for a forkless single-genesis
chain `chain`, where `chain.getD i 0` is the hash of the block at graph distance
`i` from genesis: the genesis entry (prev-hash `0`) is pre-marked `Known 0`
exactly as `build_index` does before resolving, and every other entry points at
its predecessor and starts `NotYetKnown`. -/
def chainMap (chain : List Nat) : BlocksMap := fun hsh =>
  if hsh ∈ chain then
    some { offset := 0, file := 0, size := 0,
           prev := if chain.indexOf hsh = 0 then 0 else chain.getD (chain.indexOf hsh - 1) 0,
           height := if chain.indexOf hsh = 0 then BlockHeight.Known 0
                     else BlockHeight.NotYetKnown }
  else Option.none

/-- The hashes `[chain[k-1+d], chain[k-2+d], ..., chain[k]]` — the shape of the
walk stack after the base block has been popped. -/
def descSeg (chain : List Nat) (k : Nat) : Nat → List Nat
  | 0 => []
  | d + 1 => chain.getD (k + d) 0 :: descSeg chain k d

/-- Invariant of resolution on a forkless chain: the first `k` blocks carry
their final `Known` heights, the rest are still `NotYetKnown`, prev-pointers
are those of `chain`, and nothing off-chain is in the map. -/
def PrefixResolved (chain : List Nat) (k : Nat) (m : BlocksMap) : Prop :=
  (∀ i, i < chain.length → ∃ e, m (chain.getD i 0) = some e ∧
      e.prev = (if i = 0 then 0 else chain.getD (i - 1) 0) ∧
      e.height = (if i < k then BlockHeight.Known i else BlockHeight.NotYetKnown)) ∧
  (∀ hsh, hsh ∉ chain → m hsh = Option.none)

/-! Tip selection (src/bin/main.rs, `build_index`) -/

/-- The `filter_map` collecting every resolved `Known` height. -/
def knownHeights (l : List (Nat × BlockEntry)) : List Nat :=
  l.filterMap (fun p => match p.2.height with
    | BlockHeight.Known h => some h
    | _ => Option.none)

/-- The hashes whose resolved height is `Known maxh` (the `tip_blocks` vector). -/
def tipBlocksAt (l : List (Nat × BlockEntry)) (maxh : Nat) : List Nat :=
  l.filterMap (fun p => match p.2.height with
    | BlockHeight.Known h => if h = maxh then some p.1 else Option.none
    | _ => Option.none)

/-- Embedding of `Iterator::max` over the known heights. -/
def iterMax (l : List Nat) : Option Nat :=
  l.foldl (fun acc h => match acc with
    | Option.none => some h
    | Option.some m => some (Nat.max m h)) Option.none

/-- The tip-selection step of `build_index` (lines 376-409): the maximum
`Known` height must exist and belong to exactly one hash. -/
def selectTip (l : List (Nat × BlockEntry)) : Except String Nat :=
  match iterMax (knownHeights l) with
  | Option.none => Except.error "No blocks with known heights found"
  | Option.some maxh =>
    let tips := tipBlocksAt l maxh
    if tips.length = 1 then Except.ok (tips.headD 0)
    else Except.error "Cannot determine unique tip block"

/-! Index linearization (src/bin/index.rs and `build_index`) -/

/-- Embedding of `BlockLocation`. -/
structure Loc where
  file_path : Nat
  file_offset : Nat
  block_hash : Nat
  block_size : Nat
deriving DecidableEq

/-- The `BlockLocation` built for hash `h` from its working-map entry. -/
def locOf (h : Nat) (e : BlockEntry) : Loc :=
  { file_path := e.file, file_offset := e.offset, block_hash := h, block_size := e.size }

/-- Embedding of `BlockIndex`: the height → location map plus the tip height. -/
structure BlockIndexM where
  blocks : Nat → Option Loc
  tip_height : Nat

/-- Embedding of `BlockIndex::new`. -/
def BlockIndexM.new : BlockIndexM := { blocks := fun _ => Option.none, tip_height := 0 }

/-- Embedding of `BlockIndex::add_block`: insert and bump `tip_height`. -/
def BlockIndexM.add_block (idx : BlockIndexM) (height : Nat) (loc : Loc) : BlockIndexM :=
  { blocks := fun h => if h = height then some loc else idx.blocks h,
    tip_height := if height > idx.tip_height then height else idx.tip_height }

/-- The backward linearization loop of `build_index` (lines 411-450): record the
current block at the current height, stop at the zero prev-hash, otherwise step
to the predecessor one height down.  `none` models both the fatal broken-chain
error and fuel exhaustion. -/
def buildLoop : Nat → BlocksMap → Nat → Nat → BlockIndexM → Option BlockIndexM
  | 0, _, _, _, _ => Option.none
  | fuel + 1, m, curHash, curHeight, idx =>
    match m curHash with
    | Option.none => Option.none
    | Option.some e =>
      let idx' := idx.add_block curHeight (locOf curHash e)
      if e.prev = 0 then some idx'
      else buildLoop fuel m e.prev (curHeight - 1) idx'

/-- What height resolution guarantees about the working map when `build_index`
reaches the linearization phase: a `Known 0` block is exactly a zero-prev-hash
block, and every `Known (ht+1)` block has its predecessor in the map at
`Known ht`. -/
def ChainConsistent (m : BlocksMap) : Prop :=
  ∀ hsh e ht, m hsh = some e → e.height = BlockHeight.Known ht →
    (e.prev = 0 ↔ ht = 0) ∧
    (ht ≠ 0 → ∃ e2, m e.prev = some e2 ∧ e2.height = BlockHeight.Known (ht - 1))

/-! Unspent-output tracker (src/bin/main.rs, `UtxoSet`) -/

/-- Embedding of `UtxoSet`: the active key → value map and the staged removal
set, both keyed by the 64-bit digest of `(txid, output index)`. -/
structure UtxoSet where
  active : Nat → Option Nat
  to_remove : Nat → Bool

/-- Embedding of `UtxoSet::new`. -/
def UtxoSet.new : UtxoSet := { active := fun _ => Option.none, to_remove := fun _ => false }

/-- Embedding of `UtxoSet::add_output`, with the digest `utxo_key` kept
abstract: error on a key collision unless the block height is one of the two
duplicate-coinbase heights, where the later value silently overwrites. -/
def add_output (utxo_key : Nat → Nat → Nat) (s : UtxoSet)
    (txid output_index value_sats block_height : Nat) : Except String UtxoSet :=
  let key := utxo_key txid output_index
  if (s.active key).isSome && (block_height != 91842) && (block_height != 91880) then
    Except.error "UTXO key collision detected"
  else
    Except.ok { s with active := fun k => if k = key then some value_sats else s.active k }

/-- Embedding of `UtxoSet::mark_for_removal`: stage the key for deletion. -/
def mark_for_removal (utxo_key : Nat → Nat → Nat) (s : UtxoSet)
    (txid output_index : Nat) : UtxoSet :=
  { s with to_remove := fun k => k == utxo_key txid output_index || s.to_remove k }

/-- Embedding of `UtxoSet::get_value`. -/
def get_value (utxo_key : Nat → Nat → Nat) (s : UtxoSet)
    (txid output_index : Nat) : Option Nat :=
  s.active (utxo_key txid output_index)

/-- Embedding of `UtxoSet::commit_removals`: delete every staged key and clear
the staging set. -/
def commit_removals (s : UtxoSet) : UtxoSet :=
  { active := fun k => if s.to_remove k then Option.none else s.active k,
    to_remove := fun _ => false }

/-! Iteration over a built index (src/bin/main.rs, `iterate_blocks`) -/

/-- The per-height body of the `iterate_blocks` loop, abstracted over the block
read: `read h` is `reader.read_next_block()` at the indexed location of height
`h` — `Except.error` is a `?`-propagated failure (open/seek/decode error),
`Except.ok Option.none` the "Could not read block" warning case, and
`Except.ok (some b)` a successfully decoded block.  Returns the number of
blocks processed; an error aborts the whole iteration exactly as `?` does. -/
def iterate_blocks (read : Nat → Except String (Option Nat)) :
    List Nat → Except String Nat
  | [] => Except.ok 0
  | h :: t =>
    match read h with
    | Except.error e => Except.error e
    | Except.ok Option.none => iterate_blocks read t
    | Except.ok (Option.some _) =>
      match iterate_blocks read t with
      | Except.error e => Except.error e
      | Except.ok n => Except.ok (n + 1)

/-! Subsidy and fee model (src/bin/main.rs) -/

/-- Embedding of `get_block_reward`: halve the 50 BTC initial subsidy every
210000 blocks (`>>> halvings`), hard zero from 33 halvings on. -/
def get_block_reward (height : Nat) : Nat :=
  let halvings := height / 210000
  let initial_reward_sats := 50 * 100000000
  if halvings ≥ 33 then 0
  else initial_reward_sats >>> halvings

/-- A transaction output: only the satoshi value matters here. -/
structure TxOut where
  value : Nat
deriving DecidableEq

/-- A transaction, reduced to its output list (all `calculate_block_fees`
reads). -/
structure Tx where
  output : List TxOut
deriving DecidableEq

/-- The summed output value of the coinbase transaction. -/
def coinbaseOutputValue (tx : Tx) : Nat := (tx.output.map (fun o => o.value)).sum

/-- Embedding of `calculate_block_fees`: zero for an empty transaction list,
otherwise coinbase output total minus the subsidy, clamped at zero. -/
def calculate_block_fees (transactions : List Tx) (height : Nat) : Nat :=
  match transactions with
  | [] => 0
  | coinbase :: _ =>
    let coinbase_output_value := coinbaseOutputValue coinbase
    let block_reward := get_block_reward height
    if coinbase_output_value ≥ block_reward then coinbase_output_value - block_reward
    else 0

/-! Quantile reduction (src/bin/main.rs, `calculate_quantiles`),
with `f64` idealised as `ℚ` -/

/-- Embedding of `calculate_quantiles`: an empty distribution yields zero for
every requested quantile; `q = 0` / `q = 100` return the extremes; otherwise
linear interpolation between the floor and ceil neighbours of
`pos = q/100 * (n-1)`. -/
def calculate_quantiles (sorted_data : List ℚ) (quantiles : List ℚ) : List ℚ :=
  if sorted_data.isEmpty then quantiles.map (fun _ => 0)
  else quantiles.map (fun q =>
    if q = 0 then sorted_data.getD 0 0
    else if q = 100 then sorted_data.getD (sorted_data.length - 1) 0
    else
      let pos : ℚ := (q / 100) * ((sorted_data.length : ℚ) - 1)
      if ⌊pos⌋ = ⌈pos⌉ then sorted_data.getD (⌊pos⌋).toNat 0
      else
        let weight : ℚ := pos - (⌊pos⌋ : ℚ)
        sorted_data.getD (⌊pos⌋).toNat 0 * (1 - weight) +
          sorted_data.getD (⌈pos⌉).toNat 0 * weight)

/-! Helper lemmas -/

theorem deob_involutive (key : List Nat) :
    ∀ (data : List Nat) (pos : Nat),
      deobfuscate_data key (deobfuscate_data key data pos) pos = data := by
  intro data
  induction data with
  | nil => intro pos; rfl
  | cons b rest ih =>
      intro pos
      simp [deobfuscate_data, ih, Nat.xor_assoc]

theorem deob_period (key : List Nat) :
    ∀ (data : List Nat) (pos : Nat),
      deobfuscate_data key data (pos + 8) = deobfuscate_data key data pos := by
  intro data
  induction data with
  | nil => intro pos; rfl
  | cons b rest ih =>
      intro pos
      have h8 : (pos + 8) % 8 = pos % 8 := Nat.add_mod_right pos 8
      have hs : pos + 8 + 1 = (pos + 1) + 8 := by omega
      simp [deobfuscate_data, h8, hs, ih]

theorem deob_getD (key : List Nat) :
    ∀ (data : List Nat) (pos i : Nat), i < data.length →
      (deobfuscate_data key data pos).getD i 0 =
        data.getD i 0 ^^^ key.getD ((pos + i) % 8) 0 := by
  intro data
  induction data with
  | nil => intro pos i h; simp at h
  | cons b rest ih =>
      intro pos i h
      cases i with
      | zero => simp [deobfuscate_data]
      | succ j =>
          have hj : j < rest.length := by simpa using h
          have hshift : pos + (j + 1) = (pos + 1) + j := by omega
          simpa [deobfuscate_data, hshift] using ih (pos + 1) j hj

/-- C6: container deobfuscation XORs byte `i` with `key[(offset + i) mod 8]`,
so running `deobfuscate_data` twice at the same absolute offset restores the
original bytes, and the XOR phase is purely a function of the absolute offset
(periodic modulo 8, independent of any prior reads). -/
theorem deobfuscate_data_roundtrip (key data : List Nat) (offset : Nat) :
    deobfuscate_data key (deobfuscate_data key data offset) offset = data ∧
    deobfuscate_data key data (offset + 8) = deobfuscate_data key data offset ∧
    (∀ i, i < data.length →
      (deobfuscate_data key data offset).getD i 0 =
        data.getD i 0 ^^^ key.getD ((offset + i) % 8) 0) :=
  ⟨deob_involutive key data offset, deob_period key data offset,
    fun i hi => deob_getD key data offset i hi⟩

/-- Witness for C6 at a concrete key, payload and offset. -/
theorem deobfuscate_data_roundtrip_witness :
    (2 : Nat) < ([10, 20, 30] : List Nat).length ∧
    (deobfuscate_data [1, 2, 3, 4, 5, 6, 7, 8] [10, 20, 30] 6).getD 2 0 =
      (30 : Nat) ^^^ ([1, 2, 3, 4, 5, 6, 7, 8] : List Nat).getD ((6 + 2) % 8) 0 :=
  ⟨by decide,
    (deobfuscate_data_roundtrip [1, 2, 3, 4, 5, 6, 7, 8] [10, 20, 30] 6).2.2 2 (by decide)⟩

/-- C7: in header-only scan mode, a missing 8-byte prefix is a clean
end-of-stream, a raw all-zero prefix — tested before deobfuscation — is a clean
end-of-stream, and otherwise a deobfuscated magic that is not `F9 BE B4 D9`
is a decode error. -/
theorem header_scan_modes (key stream : List Nat) (pos : Nat) :
    (stream.length < pos + 8 → read_next_header key stream pos = HeaderResult.eof) ∧
    (∀ raw, streamRead stream pos 8 = some raw → raw = List.replicate 8 0 →
      read_next_header key stream pos = HeaderResult.eof) ∧
    (∀ raw, streamRead stream pos 8 = some raw → raw ≠ List.replicate 8 0 →
      (deobfuscate_data key raw pos).take 4 ≠ magicBytes →
      read_next_header key stream pos = HeaderResult.err "Invalid magic bytes") := by
  refine ⟨?_, ?_, ?_⟩
  · intro hlen
    have h : streamRead stream pos 8 = Option.none := by
      rw [streamRead, if_neg (by omega : ¬(pos + 8 ≤ stream.length))]
    simp [read_next_header, h]
  · intro raw hread hzero
    simp [read_next_header, hread, hzero]
  · intro raw hread hzero hmagic
    have hzero' : ¬(raw = [0, 0, 0, 0, 0, 0, 0, 0]) := by
      simpa [List.replicate] using hzero
    simp [read_next_header, hread, hzero', hmagic]

/-- Witness for C7: a truncated stream, an all-zero prefix, and a bad magic. -/
theorem header_scan_modes_witness :
    read_next_header [0, 0, 0, 0, 0, 0, 0, 0] [1, 2, 3] 0 = HeaderResult.eof ∧
    read_next_header [0, 0, 0, 0, 0, 0, 0, 0] [0, 0, 0, 0, 0, 0, 0, 0, 5] 0 =
      HeaderResult.eof ∧
    read_next_header [0, 0, 0, 0, 0, 0, 0, 0] [1, 0, 0, 0, 0, 0, 0, 0, 5] 0 =
      HeaderResult.err "Invalid magic bytes" :=
  ⟨(header_scan_modes [0, 0, 0, 0, 0, 0, 0, 0] [1, 2, 3] 0).1 (by decide),
    (header_scan_modes [0, 0, 0, 0, 0, 0, 0, 0] [0, 0, 0, 0, 0, 0, 0, 0, 5] 0).2.1
      [0, 0, 0, 0, 0, 0, 0, 0] (by decide) (by decide),
    (header_scan_modes [0, 0, 0, 0, 0, 0, 0, 0] [1, 0, 0, 0, 0, 0, 0, 0, 5] 0).2.2
      [1, 0, 0, 0, 0, 0, 0, 0] (by decide) (by decide) (by decide)⟩

/-- C8: the block subsidy is `floor(5000000000 / 2^(height / 210000))` satoshis,
zero from 33 halvings on (with the documented concrete values), and block fees
are the coinbase output total minus the subsidy clamped at zero, an empty
transaction list yielding zero. -/
theorem subsidy_and_fees :
    (∀ h, get_block_reward h = 5000000000 / 2 ^ (h / 210000)) ∧
    (∀ h, 33 ≤ h / 210000 → get_block_reward h = 0) ∧
    get_block_reward 0 = 5000000000 ∧
    get_block_reward 210000 = 2500000000 ∧
    get_block_reward (210000 * 33) = 0 ∧
    get_block_reward (210000 * 33 + 1) = 0 ∧
    (∀ h, calculate_block_fees [] h = 0) ∧
    (∀ cb rest h, (calculate_block_fees (cb :: rest) h : ℤ) =
      max 0 ((coinbaseOutputValue cb : ℤ) - (get_block_reward h : ℤ))) := by
  have hval : ∀ h, get_block_reward h = 5000000000 / 2 ^ (h / 210000) := by
    intro h
    by_cases hc : h / 210000 ≥ 33
    · have hlt : (5000000000 : Nat) < 2 ^ (h / 210000) := by
        calc (5000000000 : Nat) < 2 ^ 33 := by norm_num
          _ ≤ 2 ^ (h / 210000) := Nat.pow_le_pow_right (by norm_num) hc
      simp [get_block_reward, hc, (Nat.div_eq_of_lt hlt).symm]
    · simp [get_block_reward, hc, Nat.shiftRight_eq_div_pow]
  refine ⟨hval, ?_, by rfl, by rfl, by rfl, by rfl, fun h => rfl, ?_⟩
  · intro h hc
    simp [get_block_reward, hc]
  · intro cb rest h
    simp only [calculate_block_fees]
    by_cases hge : coinbaseOutputValue cb ≥ get_block_reward h
    · rw [if_pos hge, Nat.cast_sub hge]
      omega
    · rw [if_neg hge]
      omega

/-- Witness for C8: the subsidy formula and the clamp, at concrete inputs. -/
theorem subsidy_and_fees_witness :
    get_block_reward 420000 = 5000000000 / 2 ^ (420000 / 210000) ∧
    get_block_reward 6930000 = 0 ∧
    calculate_block_fees [] 7 = 0 ∧
    (calculate_block_fees [Tx.mk [TxOut.mk 5000000100]] 0 : ℤ) =
      max 0 ((coinbaseOutputValue (Tx.mk [TxOut.mk 5000000100]) : ℤ) -
        (get_block_reward 0 : ℤ)) :=
  ⟨subsidy_and_fees.1 420000,
    subsidy_and_fees.2.1 6930000 (by decide),
    subsidy_and_fees.2.2.2.2.2.2.1 7,
    subsidy_and_fees.2.2.2.2.2.2.2 (Tx.mk [TxOut.mk 5000000100]) [] 0⟩

theorem allZero_getD (key : List Nat) :
    key.all (fun b => b = 0) → ∀ j, key.getD j 0 = 0 := by
  induction key with
  | nil => intro _ j; simp
  | cons b rest ih =>
      intro hz j
      simp only [List.all_cons, Bool.and_eq_true, decide_eq_true_eq] at hz
      obtain ⟨hb, hr⟩ := hz
      cases j with
      | zero => simpa using hb
      | succ i => simpa using ih hr i

theorem map_getD_range (l : List ℕ) :
    (List.range l.length).map (fun i => l.getD i 0) = l := by
  induction l with
  | nil => rfl
  | cons b rest ih =>
      rw [List.length_cons, List.range_succ_eq_map, List.map_cons, List.map_map]
      have hc : ((fun i => (b :: rest).getD i 0) ∘ Nat.succ) = (fun i => rest.getD i 0) := by
        funext i
        simp
      rw [hc, ih]
      simp

theorem xorWithKey_spec (key : List Nat) :
    ∀ (data : List Nat) (i : Nat),
      xorWithKey key data i =
        (List.range data.length).map
          (fun j => data.getD j 0 ^^^ key.getD ((i + j) % key.length) 0) := by
  intro data
  induction data with
  | nil => intro i; rfl
  | cons b rest ih =>
      intro i
      simp only [xorWithKey, List.length_cons, List.range_succ_eq_map, List.map_cons,
        List.map_map]
      refine congrArg₂ _ (by simp) ?_
      rw [ih (i + 1)]
      refine List.map_congr_left ?_
      intro j _
      simp only [Function.comp_apply, List.getD_cons_succ]
      have : i + 1 + j = i + (j + 1) := by omega
      rw [this]

/-- C10: the all-zero-key fast path of the KV-store value deobfuscation agrees
with the general path — for every input and non-empty key the result is the
byte-wise XOR of the input with the key repeated with wraparound, and with an
all-zero key the output is exactly the input. -/
theorem deobfuscate_value_refines (data key : List Nat) (hne : key ≠ []) :
    deobfuscate_value data key = xorRepeat data key ∧
    (key.all (fun b => b = 0) → deobfuscate_value data key = data) := by
  constructor
  · by_cases hz : key.all (fun b => b = 0)
    · rw [deobfuscate_value, if_pos hz, xorRepeat]
      symm
      calc (List.range data.length).map
            (fun i => data.getD i 0 ^^^ key.getD (i % key.length) 0)
          = (List.range data.length).map (fun i => data.getD i 0) := by
            refine List.map_congr_left ?_
            intro j _
            rw [allZero_getD key hz (j % key.length), Nat.xor_zero]
        _ = data := map_getD_range data
    · rw [deobfuscate_value, if_neg hz, xorRepeat, xorWithKey_spec key data 0]
      refine List.map_congr_left ?_
      intro j _
      simp
  · intro hz
    rw [deobfuscate_value, if_pos hz]

/-- Witness for C10 at a concrete value and key. -/
theorem deobfuscate_value_refines_witness :
    deobfuscate_value [1, 2, 3] [0, 0] = xorRepeat [1, 2, 3] [0, 0] ∧
    deobfuscate_value [1, 2, 3] [0, 0] = [1, 2, 3] :=
  ⟨(deobfuscate_value_refines [1, 2, 3] [0, 0] (by decide)).1,
    (deobfuscate_value_refines [1, 2, 3] [0, 0] (by decide)).2 (by decide)⟩

/-- C4: the unspent-output tracker — an added output is immediately readable;
after staging its key and committing removals the lookup misses; adding to a
key already present errors at every height except 91842 and 91880; at those
two heights it succeeds and the later value overwrites the earlier one. -/
theorem utxo_tracker_ops (utxo_key : Nat → Nat → Nat) (s : UtxoSet)
    (txid output_index value_sats block_height : Nat) :
    (∀ s', add_output utxo_key s txid output_index value_sats block_height = Except.ok s' →
      get_value utxo_key s' txid output_index = some value_sats) ∧
    (get_value utxo_key
      (commit_removals (mark_for_removal utxo_key s txid output_index))
      txid output_index = Option.none) ∧
    ((s.active (utxo_key txid output_index)).isSome →
      block_height ≠ 91842 → block_height ≠ 91880 →
      add_output utxo_key s txid output_index value_sats block_height =
        Except.error "UTXO key collision detected") ∧
    (block_height = 91842 ∨ block_height = 91880 →
      ∃ s', add_output utxo_key s txid output_index value_sats block_height = Except.ok s' ∧
        get_value utxo_key s' txid output_index = some value_sats) := by
  refine ⟨?_, ?_, ?_, ?_⟩
  · intro s' hok
    rw [add_output] at hok
    split at hok
    · exact absurd hok (by simp)
    · cases hok
      rw [get_value]
      simp
  · rw [get_value, commit_removals, mark_for_removal]
    simp
  · intro hsome h42 h80
    rw [add_output]
    rw [if_pos]
    simp only [Bool.and_eq_true, bne_iff_ne]
    exact ⟨⟨hsome, h42⟩, h80⟩
  · intro hht
    refine ⟨{ s with active := fun k =>
        if k = utxo_key txid output_index then some value_sats else s.active k }, ?_, ?_⟩
    · rw [add_output, if_neg]
      simp only [Bool.and_eq_true, bne_iff_ne]
      rcases hht with h | h
      · intro hc
        exact hc.1.2 h
      · intro hc
        exact hc.2 h
    · rw [get_value]
      simp

/-- Witness for C4: a fresh tracker, a collision at a non-exempt height, and an
overwrite at an exempt height, all at concrete keys and values. -/
theorem utxo_tracker_ops_witness :
    (∀ s', add_output (fun t i => t * 1000 + i) UtxoSet.new 4 0 500 7 = Except.ok s' →
      get_value (fun t i => t * 1000 + i) s' 4 0 = some 500) ∧
    (get_value (fun t i => t * 1000 + i)
      (commit_removals (mark_for_removal (fun t i => t * 1000 + i)
        { active := fun k => if k = 4000 then some 500 else Option.none,
          to_remove := fun _ => false } 4 0)) 4 0 = Option.none) ∧
    add_output (fun t i => t * 1000 + i)
      { active := fun k => if k = 4000 then some 500 else Option.none,
        to_remove := fun _ => false } 4 0 777 7 =
      Except.error "UTXO key collision detected" ∧
    (∃ s', add_output (fun t i => t * 1000 + i)
        { active := fun k => if k = 4000 then some 500 else Option.none,
          to_remove := fun _ => false } 4 0 777 91842 = Except.ok s' ∧
      get_value (fun t i => t * 1000 + i) s' 4 0 = some 777) :=
  ⟨(utxo_tracker_ops (fun t i => t * 1000 + i) UtxoSet.new 4 0 500 7).1,
    (utxo_tracker_ops (fun t i => t * 1000 + i)
      { active := fun k => if k = 4000 then some 500 else Option.none,
        to_remove := fun _ => false } 4 0 500 7).2.1,
    (utxo_tracker_ops (fun t i => t * 1000 + i)
      { active := fun k => if k = 4000 then some 500 else Option.none,
        to_remove := fun _ => false } 4 0 777 7).2.2.1 (by simp) (by decide) (by decide),
    (utxo_tracker_ops (fun t i => t * 1000 + i)
      { active := fun k => if k = 4000 then some 500 else Option.none,
        to_remove := fun _ => false } 4 0 777 91842).2.2.2 (Or.inl rfl)⟩

/-- C2: tip selection fails — returning an error and producing no index — when
no hash has a `Known` height at all, and also when more than one hash holds the
maximum `Known` height. -/
theorem tip_selection_errors (l : List (Nat × BlockEntry)) :
    (knownHeights l = [] →
      selectTip l = Except.error "No blocks with known heights found") ∧
    (∀ maxh, iterMax (knownHeights l) = some maxh → 1 < (tipBlocksAt l maxh).length →
      selectTip l = Except.error "Cannot determine unique tip block") := by
  constructor
  · intro hz
    rw [selectTip, hz]
    rfl
  · intro maxh hmax hlen
    rw [selectTip, hmax]
    simp only []
    rw [if_neg (by omega : ¬(tipBlocksAt l maxh).length = 1)]

/-- Witness for C2: a two-block fork at the same maximum height, and a map with
no resolved heights. -/
theorem tip_selection_errors_witness :
    selectTip [(10, BlockEntry.mk 0 0 0 BlockHeight.NotYetKnown 0)] =
      Except.error "No blocks with known heights found" ∧
    selectTip [(10, BlockEntry.mk 0 0 0 (BlockHeight.Known 5) 0),
               (11, BlockEntry.mk 0 0 0 (BlockHeight.Known 5) 0)] =
      Except.error "Cannot determine unique tip block" :=
  ⟨(tip_selection_errors [(10, BlockEntry.mk 0 0 0 BlockHeight.NotYetKnown 0)]).1 (by decide),
    (tip_selection_errors [(10, BlockEntry.mk 0 0 0 (BlockHeight.Known 5) 0),
        (11, BlockEntry.mk 0 0 0 (BlockHeight.Known 5) 0)]).2 5 (by decide) (by decide)⟩

/-- C5 counterexample: the claim says the iteration as a whole never aborts
because one block could not be read, but a block read that fails with an error
(for instance an invalid magic byte at the indexed offset) is propagated by
`?` and aborts the whole scan — here heights 2 and 0 are readable, height 1
fails, and the iteration returns the error instead of processing 2 blocks. -/
theorem iterate_abort_counterexample :
    iterate_blocks
      (fun h => if h = 1 then Except.error "Invalid magic bytes" else Except.ok (some 7))
      [2, 1, 0] = Except.error "Invalid magic bytes" := by
  rfl

/-- C5 (amended): during iteration over a built index, a block whose read
yields no record (`Ok(None)`, the clean end-of-stream case) is logged and
skipped and the scan continues over all remaining blocks; a read that fails
with a decode error, by contrast, aborts the iteration. -/
theorem iterate_skip_on_none (read : Nat → Except String (Option Nat))
    (heights : List Nat) (h0 : Nat)
    (hnone : read h0 = Except.ok Option.none)
    (hrest : ∀ h, h ∈ heights → h ≠ h0 → ∃ b, read h = Except.ok (some b)) :
    iterate_blocks read heights =
      Except.ok ((heights.filter (fun h => h != h0)).length) := by
  induction heights with
  | nil => rfl
  | cons h t ih =>
      have iht : iterate_blocks read t =
          Except.ok ((t.filter (fun h => h != h0)).length) :=
        ih (fun x hx hne => hrest x (List.mem_cons_of_mem h hx) hne)
      by_cases hh : h = h0
      · subst hh
        rw [iterate_blocks, hnone, iht]
        simp
      · obtain ⟨b, hb⟩ := hrest h (List.mem_cons_self h t) hh
        rw [iterate_blocks, hb, iht]
        simp [hh]

/-- Witness for C5 (amended): height 1 yields no record and is skipped, the
other two heights are processed. -/
theorem iterate_skip_on_none_witness :
    iterate_blocks
      (fun h => if h = 1 then Except.ok Option.none else Except.ok (some 7))
      [2, 1, 0] =
      Except.ok ((([2, 1, 0] : List Nat).filter (fun h => h != 1)).length) :=
  iterate_skip_on_none
    (fun h => if h = 1 then Except.ok Option.none else Except.ok (some 7))
    [2, 1, 0] 1 (by simp)
    (by
      intro h hm hne
      fin_cases hm
      · exact ⟨7, by simp⟩
      · exact absurd rfl hne
      · exact ⟨7, by simp⟩)

theorem add_block_tip (idx : BlockIndexM) (h : Nat) (loc : Loc) :
    (idx.add_block h loc).tip_height = max idx.tip_height h := by
  rw [BlockIndexM.add_block]
  split
  · exact (Nat.max_eq_right (Nat.le_of_lt (by assumption))).symm
  · exact (Nat.max_eq_left (Nat.le_of_not_lt (by assumption))).symm

theorem buildLoop_spec (m : BlocksMap) (hcc : ChainConsistent m) :
    ∀ (ht curHash : Nat) (e : BlockEntry) (idx0 : BlockIndexM),
      m curHash = some e → e.height = BlockHeight.Known ht →
      ∃ idx', buildLoop (ht + 1) m curHash ht idx0 = some idx' ∧
        (∀ h, h ≤ ht → ∃ loc, idx'.blocks h = some loc) ∧
        (∀ h, ht < h → idx'.blocks h = idx0.blocks h) ∧
        idx'.tip_height = max idx0.tip_height ht ∧
        (∃ loc, idx'.blocks 0 = some loc ∧
          ∃ e0, m loc.block_hash = some e0 ∧ e0.prev = 0) := by
  intro ht
  induction ht with
  | zero =>
      intro curHash e idx0 hm he
      have hp : e.prev = 0 := (hcc curHash e 0 hm he).1.mpr rfl
      refine ⟨idx0.add_block 0 (locOf curHash e), ?_, ?_, ?_, ?_, ?_⟩
      · simp [buildLoop, hm, hp]
      · intro h hh
        have h0 : h = 0 := Nat.le_zero.mp hh
        subst h0
        exact ⟨locOf curHash e, by simp [BlockIndexM.add_block]⟩
      · intro h hh
        show (if h = 0 then some (locOf curHash e) else idx0.blocks h) = idx0.blocks h
        rw [if_neg (by omega : ¬(h = 0))]
      · rw [add_block_tip]
      · exact ⟨locOf curHash e, by simp [BlockIndexM.add_block], e, by simpa [locOf] using hm, hp⟩
  | succ k ih =>
      intro curHash e idx0 hm he
      have hcons := hcc curHash e (k + 1) hm he
      have hprev : e.prev ≠ 0 := by
        intro h0
        exact Nat.succ_ne_zero k (hcons.1.mp h0)
      obtain ⟨e2, hm2, he2⟩ := hcons.2 (Nat.succ_ne_zero k)
      have he2' : e2.height = BlockHeight.Known k := by simpa using he2
      obtain ⟨idx', hbl, hcov, hout, htip, hzero⟩ :=
        ih e.prev e2 (idx0.add_block (k + 1) (locOf curHash e)) hm2 he2'
      refine ⟨idx', ?_, ?_, ?_, ?_, hzero⟩
      · simpa [buildLoop, hm, hprev] using hbl
      · intro h hh
        rcases Nat.lt_or_ge h (k + 1) with hlt | hge
        · exact hcov h (Nat.lt_succ_iff.mp hlt)
        · have hhk : h = k + 1 := Nat.le_antisymm hh hge
          subst hhk
          rw [hout (k + 1) (Nat.lt_succ_self k)]
          exact ⟨locOf curHash e, by simp [BlockIndexM.add_block]⟩
      · intro h hh
        rw [hout h (Nat.lt_of_succ_lt hh)]
        show (if h = k + 1 then some (locOf curHash e) else idx0.blocks h) = idx0.blocks h
        rw [if_neg (by omega : ¬(h = k + 1))]
      · rw [htip, add_block_tip]
        omega

/-- C3: given the consistency that height resolution establishes (a `Known 0`
block is exactly a zero-prev-hash block, and every `Known (h+1)` block has a
`Known h` predecessor in the map), the backward walk of `build_index` from a
tip resolved at height `t` succeeds and produces an index mapping every height
in `[0, t]` to exactly one location, with `tip_height = t`, no entries above
`t`, and the walk terminating exactly at a block whose prev-hash is zero. -/
theorem index_linearization_dense (m : BlocksMap) (tipHash t : Nat) (e : BlockEntry)
    (hcc : ChainConsistent m) (hm : m tipHash = some e)
    (he : e.height = BlockHeight.Known t) :
    ∃ idx, buildLoop (t + 1) m tipHash t BlockIndexM.new = some idx ∧
      idx.tip_height = t ∧
      (∀ h, h ≤ t → ∃ loc, idx.blocks h = some loc) ∧
      (∀ h, t < h → idx.blocks h = Option.none) ∧
      (∃ loc, idx.blocks 0 = some loc ∧
        ∃ e0, m loc.block_hash = some e0 ∧ e0.prev = 0) := by
  obtain ⟨idx, hbl, hcov, hout, htip, hzero⟩ := buildLoop_spec m hcc t tipHash e
    BlockIndexM.new hm he
  refine ⟨idx, hbl, ?_, hcov, ?_, hzero⟩
  · rw [htip]
    simp [BlockIndexM.new]
  · intro h hh
    rw [hout h hh]
    rfl

/-- Witness for C3: a concrete two-block chain (genesis hash 1 at height 0,
tip hash 2 at height 1). -/
theorem index_linearization_dense_witness :
    ∃ idx, buildLoop 2
        (fun h => if h = 1 then some (BlockEntry.mk 0 0 0 (BlockHeight.Known 0) 93)
          else if h = 2 then some (BlockEntry.mk 93 0 1 (BlockHeight.Known 1) 90)
          else Option.none) 2 1 BlockIndexM.new = some idx ∧
      idx.tip_height = 1 ∧
      (∀ h, h ≤ 1 → ∃ loc, idx.blocks h = some loc) ∧
      (∀ h, 1 < h → idx.blocks h = Option.none) ∧
      (∃ loc, idx.blocks 0 = some loc ∧
        ∃ e0, (fun h => if h = 1 then some (BlockEntry.mk 0 0 0 (BlockHeight.Known 0) 93)
          else if h = 2 then some (BlockEntry.mk 93 0 1 (BlockHeight.Known 1) 90)
          else Option.none) loc.block_hash = some e0 ∧ e0.prev = 0) :=
  index_linearization_dense
    (fun h => if h = 1 then some (BlockEntry.mk 0 0 0 (BlockHeight.Known 0) 93)
      else if h = 2 then some (BlockEntry.mk 93 0 1 (BlockHeight.Known 1) 90)
      else Option.none) 2 1 (BlockEntry.mk 93 0 1 (BlockHeight.Known 1) 90)
    (by
      intro hsh e ht hm he
      by_cases h1 : hsh = 1
      · subst h1
        simp only [if_pos rfl] at hm
        cases hm
        cases he
        simp
      · by_cases h2 : hsh = 2
        · subst h2
          simp only [if_neg (by decide : ¬(2 = 1)), if_pos rfl] at hm
          cases hm
          cases he
          refine ⟨by simp, ?_⟩
          intro _
          exact ⟨BlockEntry.mk 0 0 0 (BlockHeight.Known 0) 93, by simp, by simp⟩
        · simp only [if_neg h1, if_neg h2] at hm
          exact Option.noConfusion hm)
    (by simp) rfl

theorem ceil_eq_floor_of_int (x : ℚ) (h : (⌊x⌋ : ℚ) = x) : ⌈x⌉ = ⌊x⌋ := by
  conv_lhs => rw [← h]
  exact Int.ceil_intCast ⌊x⌋

theorem floor_eq_of_ceil_eq_floor (x : ℚ) (h : ⌈x⌉ = ⌊x⌋) : (⌊x⌋ : ℚ) = x := by
  have h1 := Int.floor_le x
  have h2 := Int.le_ceil x
  rw [h] at h2
  exact le_antisymm h1 h2

/-- C9: quantile reduction — an empty distribution yields zero for every
requested quantile; otherwise, for `q` in `[0, 100]` and
`pos = q/100 * (n-1)`, an integral `pos` returns the element at that sorted
rank and a non-integral `pos` returns the linear blend of the floor and ceil
neighbours; in particular on `[1,2,3,4,5]` quantiles 50, 0, 100, 25 give
3, 1, 5, 2 (with `f64` idealised as `ℚ`). -/
theorem quantile_interpolation :
    (∀ qs : List ℚ, calculate_quantiles [] qs = qs.map (fun _ => 0)) ∧
    (∀ (data : List ℚ) (q : ℚ), data ≠ [] → 0 ≤ q → q ≤ 100 →
      ((⌊(q / 100) * ((data.length : ℚ) - 1)⌋ : ℚ) = (q / 100) * ((data.length : ℚ) - 1) →
        calculate_quantiles data [q] =
          [data.getD (⌊(q / 100) * ((data.length : ℚ) - 1)⌋).toNat 0]) ∧
      ((⌊(q / 100) * ((data.length : ℚ) - 1)⌋ : ℚ) ≠ (q / 100) * ((data.length : ℚ) - 1) →
        calculate_quantiles data [q] =
          [data.getD (⌊(q / 100) * ((data.length : ℚ) - 1)⌋).toNat 0 *
              (1 - ((q / 100) * ((data.length : ℚ) - 1) -
                (⌊(q / 100) * ((data.length : ℚ) - 1)⌋ : ℚ))) +
            data.getD (⌈(q / 100) * ((data.length : ℚ) - 1)⌉).toNat 0 *
              ((q / 100) * ((data.length : ℚ) - 1) -
                (⌊(q / 100) * ((data.length : ℚ) - 1)⌋ : ℚ))])) ∧
    calculate_quantiles [1, 2, 3, 4, 5] [50, 0, 100, 25] = [3, 1, 5, 2] := by
  refine ⟨?_, ?_, ?_⟩
  · intro qs
    rfl
  · intro data q hne h0 h100
    have hemp : ¬(data.isEmpty = true) := by
      simpa [List.isEmpty_iff] using hne
    have hlen : 1 ≤ data.length := by
      have := List.length_pos.mpr hne
      omega
    by_cases hq0 : q = 0
    · subst hq0
      have hpos : ((0 : ℚ) / 100) * ((data.length : ℚ) - 1) = 0 := by
        rw [zero_div, zero_mul]
      constructor
      · intro _
        rw [calculate_quantiles, if_neg hemp, List.map_cons, List.map_nil]
        rw [hpos, Int.floor_zero]
        simp
      · intro hni
        exact absurd (by rw [hpos, Int.floor_zero, Int.cast_zero]) hni
    · by_cases hq100 : q = 100
      · subst hq100
        have hpos : ((100 : ℚ) / 100) * ((data.length : ℚ) - 1) =
            ((data.length - 1 : ℕ) : ℚ) := by
          rw [Nat.cast_sub hlen]
          push_cast
          ring
        have hfl : ⌊((100 : ℚ) / 100) * ((data.length : ℚ) - 1)⌋ =
            ((data.length - 1 : ℕ) : ℤ) := by
          rw [hpos, Int.floor_natCast]
        constructor
        · intro _
          rw [calculate_quantiles, if_neg hemp, List.map_cons, List.map_nil]
          rw [if_neg (by norm_num), if_pos rfl, hfl]
          simp
        · intro hni
          refine absurd ?_ hni
          rw [hfl, hpos]
          simp
      · constructor
        · intro hint
          have hceil : ⌈(q / 100) * ((data.length : ℚ) - 1)⌉ =
              ⌊(q / 100) * ((data.length : ℚ) - 1)⌋ :=
            ceil_eq_floor_of_int _ hint
          rw [calculate_quantiles, if_neg hemp, List.map_cons, List.map_nil]
          rw [if_neg hq0, if_neg hq100, if_pos hceil.symm]
        · intro hni
          have hceil : ¬(⌊(q / 100) * ((data.length : ℚ) - 1)⌋ =
              ⌈(q / 100) * ((data.length : ℚ) - 1)⌉) := by
            intro h
            exact hni (floor_eq_of_ceil_eq_floor _ h.symm)
          rw [calculate_quantiles, if_neg hemp, List.map_cons, List.map_nil]
          rw [if_neg hq0, if_neg hq100, if_neg hceil]
  · rw [calculate_quantiles]
    norm_num
    rfl

/-- Witness for C9: quantile 0 on `[7, 8, 9]` hits an integral interpolation
position and returns the element at that rank. -/
theorem quantile_interpolation_witness :
    calculate_quantiles [7, 8, 9] [0] =
      [([7, 8, 9] : List ℚ).getD
        (⌊((0 : ℚ) / 100) * ((([7, 8, 9] : List ℚ).length : ℚ) - 1)⌋).toNat 0] :=
  (quantile_interpolation.2.1 [7, 8, 9] 0 (by simp) (by decide) (by decide)).1 (by simp)

theorem chain_getD_mem (chain : List Nat) (i : Nat) (hi : i < chain.length) :
    chain.getD i 0 ∈ chain := by
  rw [List.getD_eq_getElem chain 0 hi]
  exact List.getElem_mem hi

theorem chain_indexOf_getD (chain : List Nat) (hnd : chain.Nodup) (i : Nat)
    (hi : i < chain.length) : chain.indexOf (chain.getD i 0) = i := by
  rw [List.getD_eq_getElem chain 0 hi]
  exact List.indexOf_getElem hnd i hi

theorem chain_getD_inj (chain : List Nat) (hnd : chain.Nodup) (i j : Nat)
    (hi : i < chain.length) (hj : j < chain.length)
    (he : chain.getD i 0 = chain.getD j 0) : i = j := by
  rw [List.getD_eq_getElem chain 0 hi, List.getD_eq_getElem chain 0 hj] at he
  exact (List.Nodup.getElem_inj_iff hnd).mp he

theorem chainMap_prefixResolved (chain : List Nat) (hnd : chain.Nodup) :
    PrefixResolved chain 1 (chainMap chain) := by
  constructor
  · intro i hi
    have hmem := chain_getD_mem chain i hi
    have hidx := chain_indexOf_getD chain hnd i hi
    rw [chainMap, if_pos hmem, hidx]
    refine ⟨_, rfl, rfl, ?_⟩
    by_cases h0 : i = 0
    · subst h0
      simp
    · simp only [if_neg h0, if_neg (by omega : ¬(i < 1))]
  · intro hsh hns
    rw [chainMap, if_neg hns]

theorem setHeight_prefixExtend (chain : List Nat) (hnd : chain.Nodup) (k : Nat)
    (m : BlocksMap) (hpr : PrefixResolved chain k m) (hk : k < chain.length) :
    PrefixResolved chain (k + 1)
      (setHeight m (chain.getD k 0) (BlockHeight.Known k)) := by
  constructor
  · intro i hi
    obtain ⟨e, hme, hprev, hht⟩ := hpr.1 i hi
    by_cases hik : i = k
    · subst hik
      refine ⟨{ e with height := BlockHeight.Known i }, ?_, hprev, ?_⟩
      · rw [setHeight]
        rw [if_pos rfl, hme]
        rfl
      · rw [if_pos (by omega : i < i + 1)]
    · have hne : chain.getD i 0 ≠ chain.getD k 0 := by
        intro he
        exact hik (chain_getD_inj chain hnd i k hi hk he)
      refine ⟨e, ?_, hprev, ?_⟩
      · rw [setHeight, if_neg hne]
        exact hme
      · rw [hht]
        by_cases hlt : i < k
        · rw [if_pos hlt, if_pos (by omega : i < k + 1)]
        · rw [if_neg hlt, if_neg (by omega : ¬(i < k + 1))]
  · intro hsh hns
    have hne : hsh ≠ chain.getD k 0 := by
      intro he
      exact hns (he ▸ chain_getD_mem chain k hk)
    rw [setHeight, if_neg hne]
    exact hpr.2 hsh hns

theorem unwind_cons (m : BlocksMap) (b : Nat) (a : Nat) (t : List Nat) :
    unwindStack m b (a :: t) =
      (setHeight (unwindStack m b t).1 a (BlockHeight.Known ((unwindStack m b t).2 + 1)),
        (unwindStack m b t).2 + 1) := by
  rw [unwindStack, unwindStack, List.reverse_cons, List.foldl_append]
  rfl

theorem unwind_spec (chain : List Nat) (hnd : chain.Nodup) (k : Nat) (hk : 1 ≤ k)
    (m : BlocksMap) (hpr : PrefixResolved chain k m) :
    ∀ d, k + d ≤ chain.length →
      (unwindStack m (k - 1) (descSeg chain k d)).2 = k - 1 + d ∧
      PrefixResolved chain (k + d) (unwindStack m (k - 1) (descSeg chain k d)).1 := by
  intro d
  induction d with
  | zero => exact fun _ => ⟨rfl, hpr⟩
  | succ d ih =>
      intro hle
      obtain ⟨h2, hp⟩ := ih (by omega)
      have hdesc : descSeg chain k (d + 1) = chain.getD (k + d) 0 :: descSeg chain k d := rfl
      rw [hdesc, unwind_cons, h2]
      have harith : k - 1 + d + 1 = k + d := by omega
      rw [harith]
      exact ⟨by omega, setHeight_prefixExtend chain hnd (k + d) _ hp (by omega)⟩

theorem heightLoop_spec (chain : List Nat) (hnd : chain.Nodup) (k : Nat) (hk : 1 ≤ k)
    (m : BlocksMap) (hpr : PrefixResolved chain k m) :
    ∀ (d : Nat) (s : List Nat) (fuel : Nat), k - 1 + d < chain.length → d + 1 ≤ fuel →
      heightLoop fuel m (chain.getD (k - 1 + d) 0) s =
        some ((unwindStack m (k - 1) (s ++ descSeg chain k d)).1,
          BlockHeight.Known (unwindStack m (k - 1) (s ++ descSeg chain k d)).2) := by
  intro d
  induction d with
  | zero =>
      intro s fuel hlen hfuel
      obtain ⟨f, rfl⟩ : ∃ f, fuel = f + 1 := ⟨fuel - 1, by omega⟩
      obtain ⟨e, hme, hprev, hht⟩ := hpr.1 (k - 1) (by omega)
      have hhk : e.height = BlockHeight.Known (k - 1) := by
        rw [hht, if_pos (by omega : k - 1 < k)]
      simp only [Nat.add_zero] at *
      simp only [heightLoop, hme, hhk]
      rw [show descSeg chain k 0 = ([] : List Nat) from rfl, List.append_nil]
  | succ d ih =>
      intro s fuel hlen hfuel
      obtain ⟨f, rfl⟩ : ∃ f, fuel = f + 1 := ⟨fuel - 1, by omega⟩
      have hidx : k - 1 + (d + 1) = k + d := by omega
      rw [hidx] at hlen ⊢
      obtain ⟨e, hme, hprev, hht⟩ := hpr.1 (k + d) hlen
      have hhn : e.height = BlockHeight.NotYetKnown := by
        rw [hht, if_neg (by omega : ¬(k + d < k))]
      have hpe : e.prev = chain.getD (k - 1 + d) 0 := by
        rw [hprev, if_neg (by omega : ¬(k + d = 0))]
        congr 1
        omega
      simp only [heightLoop, hme, hhn, hpe]
      rw [ih (s ++ [chain.getD (k + d) 0]) f (by omega) (by omega)]
      have hshape : (s ++ [chain.getD (k + d) 0]) ++ descSeg chain k d =
          s ++ descSeg chain k (d + 1) := by
        rw [show descSeg chain k (d + 1) = chain.getD (k + d) 0 :: descSeg chain k d from rfl,
          List.append_assoc, List.singleton_append]
      rw [hshape]

theorem get_block_height_spec (chain : List Nat) (hnd : chain.Nodup) (k : Nat)
    (hk1 : 1 ≤ k) (hklen : k ≤ chain.length) (m : BlocksMap)
    (hpr : PrefixResolved chain k m) (j fuel : Nat) (hj : j < chain.length)
    (hfuel : chain.length + 1 ≤ fuel) :
    ∃ m', get_block_height fuel (chain.getD j 0) m = some (m', BlockHeight.Known j) ∧
      PrefixResolved chain (max k (j + 1)) m' := by
  obtain ⟨e, hme, hprev, hht⟩ := hpr.1 j hj
  by_cases hjk : j < k
  · have hhk : e.height = BlockHeight.Known j := by rw [hht, if_pos hjk]
    refine ⟨m, ?_, ?_⟩
    · simp only [get_block_height, hme, hhk]
    · rw [Nat.max_eq_left (by omega : j + 1 ≤ k)]
      exact hpr
  · have hhn : e.height = BlockHeight.NotYetKnown := by rw [hht, if_neg hjk]
    obtain ⟨d, hd⟩ : ∃ d, j + 1 = k + d := ⟨j + 1 - k, by omega⟩
    have hu := unwind_spec chain hnd k hk1 m hpr d (by omega)
    have hidx : k - 1 + d = j := by omega
    refine ⟨(unwindStack m (k - 1) (descSeg chain k d)).1, ?_, ?_⟩
    · simp only [get_block_height, hme, hhn]
      have hl := heightLoop_spec chain hnd k hk1 m hpr d [] fuel (by omega) (by omega)
      rw [hidx] at hl
      rw [show ([] : List Nat) ++ descSeg chain k d = descSeg chain k d from rfl] at hl
      rw [hl, hu.1, hidx]
    · rw [Nat.max_eq_right (by omega : k ≤ j + 1)]
      have : k + d = j + 1 := by omega
      rw [← this]
      exact hu.2

theorem resolveAll_spec (chain : List Nat) (hnd : chain.Nodup) :
    ∀ (order : List Nat) (m : BlocksMap) (k : Nat), 1 ≤ k → k ≤ chain.length →
      PrefixResolved chain k m → (∀ x, x ∈ order → x ∈ chain) →
      ∃ m' k', resolveAll (chain.length + 1) order m = some m' ∧
        PrefixResolved chain k' m' ∧ k ≤ k' ∧ k' ≤ chain.length ∧
        (∀ j, j < chain.length → chain.getD j 0 ∈ order → j < k') := by
  intro order
  induction order with
  | nil =>
      intro m k hk1 hklen hpr _
      exact ⟨m, k, rfl, hpr, le_refl k, hklen,
        fun j _ hj => absurd hj (List.not_mem_nil _)⟩
  | cons x t ih =>
      intro m k hk1 hklen hpr hsub
      have hxc : x ∈ chain := hsub x (List.mem_cons_self x t)
      have hj0lt : chain.indexOf x < chain.length := List.indexOf_lt_length.mpr hxc
      have hgd : chain.getD (chain.indexOf x) 0 = x := by
        rw [List.getD_eq_getElem chain 0 hj0lt]
        exact List.getElem_indexOf hj0lt
      obtain ⟨m1, hg, hp1⟩ := get_block_height_spec chain hnd k hk1 hklen m hpr
        (chain.indexOf x) (chain.length + 1) hj0lt (le_refl _)
      rw [hgd] at hg
      have hk1' : 1 ≤ max k (chain.indexOf x + 1) := le_trans hk1 (Nat.le_max_left _ _)
      have hklen' : max k (chain.indexOf x + 1) ≤ chain.length :=
        Nat.max_le.mpr ⟨hklen, by omega⟩
      obtain ⟨m', k', hres, hp', hk'ge, hk'len, hcov⟩ :=
        ih m1 (max k (chain.indexOf x + 1)) hk1' hklen' hp1
          (fun y hy => hsub y (List.mem_cons_of_mem x hy))
      refine ⟨m', k', ?_, hp', le_trans (Nat.le_max_left _ _) hk'ge, hk'len, ?_⟩
      · simp only [resolveAll, hg]
        exact hres
      · intro j hjlen hjmem
        rcases List.mem_cons.mp hjmem with heq | hmem
        · have hjx : j = chain.indexOf x := by
            apply chain_getD_inj chain hnd j (chain.indexOf x) hjlen hj0lt
            rw [hgd, heq]
          have := Nat.le_max_right k (chain.indexOf x + 1)
          omega
        · exact hcov j hjlen hmem

theorem resolveAll_characterize (chain order : List Nat) (hnd : chain.Nodup)
    (hne : chain ≠ []) (hperm : order.Perm chain) :
    ∃ m', resolveAll (chain.length + 1) order (chainMap chain) = some m' ∧
      (∀ j, j < chain.length → ∃ e, m' (chain.getD j 0) = some e ∧
        e.height = BlockHeight.Known j) ∧
      (∀ hsh, hsh ∉ chain → m' hsh = Option.none) := by
  have hlen : 1 ≤ chain.length := by
    have := List.length_pos.mpr hne
    omega
  obtain ⟨m', k', hres, hp', _, _, hcov⟩ := resolveAll_spec chain hnd order
    (chainMap chain) 1 (le_refl 1) hlen (chainMap_prefixResolved chain hnd)
    (fun x hx => (hperm.mem_iff).mp hx)
  refine ⟨m', hres, ?_, hp'.2⟩
  intro j hj
  have hjm : chain.getD j 0 ∈ order := (hperm.mem_iff).mpr (chain_getD_mem chain j hj)
  have hjk : j < k' := hcov j hj hjm
  obtain ⟨e, hme, _, hht⟩ := hp'.1 j hj
  exact ⟨e, hme, by rw [hht, if_pos hjk]⟩

/-- C1: for a discovered block set forming a forkless chain with a single
genesis (zero prev-hash), resolving heights over all hashes assigns every block
the `Known` height equal to its graph distance from genesis, and the final
height assignment is identical for every permutation of the processing order. -/
theorem chain_height_resolution (chain order : List Nat) (hnd : chain.Nodup)
    (hne : chain ≠ []) (hperm : order.Perm chain) :
    ∃ m', resolveAll (chain.length + 1) order (chainMap chain) = some m' ∧
      (∀ j, j < chain.length → ∃ e, m' (chain.getD j 0) = some e ∧
        e.height = BlockHeight.Known j) ∧
      (∀ hsh, hsh ∉ chain → m' hsh = Option.none) ∧
      (∀ order2 m2, order2.Perm chain →
        resolveAll (chain.length + 1) order2 (chainMap chain) = some m2 →
        ∀ hsh, (m2 hsh).map (fun e => e.height) = (m' hsh).map (fun e => e.height)) := by
  obtain ⟨m', hres, hh, hoff⟩ := resolveAll_characterize chain order hnd hne hperm
  refine ⟨m', hres, hh, hoff, ?_⟩
  intro order2 m2 hperm2 hres2 hsh
  obtain ⟨m2', hres2', hh2, hoff2⟩ := resolveAll_characterize chain order2 hnd hne hperm2
  have hm2 : m2' = m2 := Option.some.inj (hres2'.symm.trans hres2)
  subst hm2
  by_cases hmem : hsh ∈ chain
  · have hjlt : chain.indexOf hsh < chain.length := List.indexOf_lt_length.mpr hmem
    have hgd : chain.getD (chain.indexOf hsh) 0 = hsh := by
      rw [List.getD_eq_getElem chain 0 hjlt]
      exact List.getElem_indexOf hjlt
    obtain ⟨e2, hme2, hht2⟩ := hh2 (chain.indexOf hsh) hjlt
    obtain ⟨e, hme, hht⟩ := hh (chain.indexOf hsh) hjlt
    rw [hgd] at hme2 hme
    rw [hme2, hme]
    simp [hht2, hht]
  · rw [hoff2 hsh hmem, hoff hsh hmem]

/-- Witness for C1: the three-block chain with hashes 5, 7, 9 processed in the
order 9, 5, 7; the block with hash 9 ends at `Known 2`, its distance from
genesis. -/
theorem chain_height_resolution_witness :
    (resolveAll (([5, 7, 9] : List Nat).length + 1) [9, 5, 7] (chainMap [5, 7, 9])).map
        (fun m => (m 9).map (fun e => e.height)) =
      some (some (BlockHeight.Known 2)) := by
  obtain ⟨m', hres, hh, -, -⟩ :=
    chain_height_resolution [5, 7, 9] [9, 5, 7] (by decide) (by decide) (by decide)
  obtain ⟨e, hme, hht⟩ := hh 2 (by decide)
  have h9 : ([5, 7, 9] : List Nat).getD 2 0 = 9 := rfl
  rw [h9] at hme
  rw [hres]
  simp [hme, hht]

end Blockstats
